import Mathlib

/-!
Shallow embedding of the Poetry-Checker core (`src/poetry_functions.py`).

Python strings are modelled as `List Char`; a phoneme is a `List Char`, a
pronunciation dictionary is an insertion-ordered association list with unique
keys (Python `dict` preserves insertion order, and the code iterates over the
keys), and fallible operations (list indexing that can raise `IndexError`)
return `Option`.  Python's `str.upper` is modelled per character by
`Char.toUpper`, which agrees with Python on the ASCII inputs this program
works with.
-/

namespace PoetryChecker

/-- A word's pronunciation: the ordered sequence of phoneme tokens. -/
abbrev Phonemes := List (List Char)

/-- The pronunciation dictionary, as an insertion-ordered association list
with unique keys (the model of a Python `dict`). -/
abbrev PronunciationDict := List (List Char × Phonemes)

/-- The punctuation set hard-coded in `transform_string`: the characters of
the Python string literal, in order, plus newline, tab and carriage return;
the apostrophe, backtick, braces and backslash are spelled by code point
(`Char.ofNat` 39, 96, 123, 125 and 92). -/
def pyPunct : List Char :=
  ['!', '\"', Char.ofNat 39, Char.ofNat 96, '@', '$', '%', '^', '&', '_',
   '-', '+', '=', Char.ofNat 123, Char.ofNat 125, '|', Char.ofNat 92, '/',
   ',', ';', ':', '.', '-', '?', ')', '(', '[', ']', '<', '>', '*', '#',
   '\n', '\t', '\r']

/-- Membership in the punctuation set. -/
def isPunct (c : Char) : Bool := pyPunct.contains c

/-- Python `s.strip(punctuation)`: remove the characters of the set from both
ends of the string (inner occurrences are kept). -/
def pyStrip (cs : List Char) : List Char :=
  ((cs.dropWhile isPunct).reverse.dropWhile isPunct).reverse

/-- `transform_string` from `poetry_functions.py`: uppercase everything, then
strip the fixed punctuation set from both ends. -/
def transform_string (s : List Char) : List Char :=
  pyStrip (s.map Char.toUpper)

/-- `is_vowel_phoneme`: the phoneme's last character is `0`, `1` or `2`.
The Python code indexes `phoneme[-1]` under the stated precondition that the
phoneme is non-empty; the empty case is totalised to `false`. -/
def is_vowel_phoneme (p : List Char) : Bool :=
  match p.getLast? with
  | some c => c = '0' ∨ c = '1' ∨ c = '2'
  | none => false

/-- Python `w in word_to_phonemes`: key membership test. -/
def hasKey (d : PronunciationDict) (w : List Char) : Bool :=
  d.any (fun kv => kv.1 = w)

/-- Python `word_to_phonemes[w]` as a total lookup: the value at the (unique)
key `w`, if present. -/
def lookupWord (d : PronunciationDict) (w : List Char) : Option Phonemes :=
  (d.find? (fun kv => kv.1 = w)).map (fun kv => kv.2)

/-- The inner loop of `get_syllable_count`: `for j in word_to_phonemes`
iterates over the dictionary KEYS and counts those that `is_vowel_phoneme`
accepts. -/
def vowelKeyCount (d : PronunciationDict) : Nat :=
  d.countP (fun kv => is_vowel_phoneme kv.1)

/-- `get_syllable_count`, translated exactly as written: `for i in
poem_lines` iterates over the CHARACTERS of the transformed line (the code
never splits the line into words), and for each character that is a
dictionary key it adds the number of dictionary keys that end in a stress
digit. -/
def get_syllable_count (poem_line : List Char) (d : PronunciationDict) : Nat :=
  (transform_string poem_line).foldl
    (fun count i => if hasKey d [i] then count + vowelKeyCount d else count) 0

/-- The loop of `check_syllable_counts`: walk the poem's lines with the
required syllable counts; `description[0][i]` raises `IndexError` (modelled
as `none`) when the counts run out before the poem does. -/
def cscAux (d : PronunciationDict) :
    List (List Char) → List Nat → Option (List (List Char))
  | [], _ => some []
  | _ :: _, [] => none
  | line :: pr, req :: cr =>
    (cscAux d pr cr).map (fun rest =>
      if req ≠ 0 ∧ get_syllable_count line d ≠ req then line :: rest else rest)

/-- `check_syllable_counts`: the lines whose actual syllable count differs
from the non-zero required count, in poem order. -/
def check_syllable_counts (poem_lines : List (List Char))
    (description : List Nat × List (List Char)) (d : PronunciationDict) :
    Option (List (List Char)) :=
  cscAux d poem_lines description.1

/-- `get_last_syllable`: the suffix of the phoneme sequence starting at the
last vowel phoneme; empty if there is no vowel phoneme.  (The Python loop
scans indices from the end; the suffix from the last vowel is non-empty, so
recursing on the tail first and falling back to the head is the same
function.) -/
def get_last_syllable : Phonemes → Phonemes
  | [] => []
  | p :: rest =>
    match get_last_syllable rest with
    | [] => if is_vowel_phoneme p then p :: rest else []
    | q :: qs => q :: qs

/-- `words_rhyme`: normalize both words; unknown words never rhyme; known
words rhyme iff their last syllables are equal. -/
def words_rhyme (word1 word2 : List Char) (d : PronunciationDict) : Bool :=
  match lookupWord d (transform_string word1),
        lookupWord d (transform_string word2) with
  | some p1, some p2 => get_last_syllable p1 = get_last_syllable p2
  | _, _ => false

/-- Python `str.split()` whitespace (the ASCII part): space, tab, newline,
carriage return, vertical tab (11) and form feed (12). -/
def isWS (c : Char) : Bool :=
  c = ' ' ∨ c = '\t' ∨ c = '\n' ∨ c = '\r' ∨ c = Char.ofNat 11 ∨
    c = Char.ofNat 12

/-- Python `line.split()`: the maximal runs of non-whitespace characters, in
order (no empty words). -/
def splitWS : List Char → List (List Char)
  | [] => []
  | c :: rest =>
    if isWS c then splitWS rest
    else
      match rest with
      | [] => [[c]]
      | c2 :: _ =>
        if isWS c2 then [c] :: splitWS rest
        else
          match splitWS rest with
          | [] => [[c]]
          | w :: ws => (c :: w) :: ws

/-- The loop of `all_lines_rhyme` that builds the list `last` of last
syllables: `poem_lines[i]` out of range or `split()[-1]` on a whitespace-only
line raises `IndexError` (outer `none`); a missing dictionary word triggers
the early `return False` (inner `none`). -/
def collectLast (poem : List (List Char)) (d : PronunciationDict) :
    List Nat → Option (Option (List Phonemes))
  | [] => some (some [])
  | i :: rest =>
    match poem[i]? with
    | none => none
    | some line =>
      match (splitWS line).getLast? with
      | none => none
      | some w =>
        match lookupWord d (transform_string w) with
        | none => some none
        | some ph =>
          (collectLast poem d rest).map (fun r =>
            r.map (fun l => get_last_syllable ph :: l))

/-- `all_lines_rhyme`: `some false` when a last word is missing from the
dictionary or two collected last syllables differ, `some true` when all
collected last syllables equal the first, `none` on `IndexError`. -/
def all_lines_rhyme (poem : List (List Char)) (lines_to_check : List Nat)
    (d : PronunciationDict) : Option Bool :=
  match collectLast poem d lines_to_check with
  | none => none
  | some none => some false
  | some (some last) => some (last.all (fun j => last.head? = some j))

/-- The label map of `get_rhyme_label_to_lines`, as an insertion-ordered
association list (the model of the Python `dict`). -/
abbrev LabelMap := List (List Char × List Nat)

/-- One iteration of the `get_rhyme_label_to_lines` loop: create the key at
the end if absent, then append the index to its list. -/
def addIndex (m : LabelMap) (lab : List Char) (i : Nat) : LabelMap :=
  if m.any (fun kv => kv.1 = lab)
  then m.map (fun kv => if kv.1 = lab then (kv.1, kv.2 ++ [i]) else kv)
  else m ++ [(lab, [i])]

/-- The `for i in range(len(rhyme_scheme))` loop of
`get_rhyme_label_to_lines`, with `i` the index of the first label of the
remaining list. -/
def buildAux (i : Nat) (m : LabelMap) : List (List Char) → LabelMap
  | [] => m
  | lab :: rest => buildAux (i + 1) (addIndex m lab i) rest

/-- `get_rhyme_label_to_lines`: group the indices of the rhyme scheme by
label, keys in first-occurrence order, each index list ascending. -/
def get_rhyme_label_to_lines (rhyme_scheme : List (List Char)) : LabelMap :=
  buildAux 0 [] rhyme_scheme

/-- The comprehension `[poem_lines[i] for i in j]` of `check_rhyme_scheme`;
`none` models the `IndexError` on an out-of-range index. -/
def linesAt (poem : List (List Char)) : List Nat → Option (List (List Char))
  | [] => some []
  | i :: rest =>
    match poem[i]? with
    | none => none
    | some l => (linesAt poem rest).map (fun ls => l :: ls)

/-- The unconstrained rhyme label. -/
def star : List Char := ['*']

/-- The `for label, j in labels.items()` loop of `check_rhyme_scheme`,
including the duplicated `if not all_lines_rhyme(...)` append of the
source. -/
def crsAux (poem : List (List Char)) (d : PronunciationDict) :
    LabelMap → List (List (List Char)) → Option (List (List (List Char)))
  | [], acc => some acc
  | (lab, j) :: rest, acc =>
    if lab = star then crsAux poem d rest acc
    else
      match linesAt poem j with
      | none => none
      | some line =>
        match all_lines_rhyme poem j d with
        | none => none
        | some b =>
          let acc1 := if b then acc else acc ++ [line]
          let acc2 := if b then acc1 else acc1 ++ [line]
          crsAux poem d rest acc2

/-- `check_rhyme_scheme`: for every label other than `'*'`, report the
group's lines when the group fails `all_lines_rhyme` (the source appends the
failing group twice). -/
def check_rhyme_scheme (poem_lines : List (List Char))
    (description : List Nat × List (List Char)) (d : PronunciationDict) :
    Option (List (List (List Char))) :=
  crsAux poem_lines d (get_rhyme_label_to_lines description.2) []

/-! ### Specification-side helpers used to analyse `get_rhyme_label_to_lines` -/

/-- The ascending list of positions (counting from `i`) at which `lab` occurs
in the remaining scheme. -/
def occFrom (i : Nat) : List (List Char) → List Char → List Nat
  | [], _ => []
  | l :: rest, lab =>
    if l = lab then i :: occFrom (i + 1) rest lab
    else occFrom (i + 1) rest lab

/-- The entries that the `get_rhyme_label_to_lines` loop appends for the
labels of the remaining scheme that are not yet keys (`seen`), in
first-occurrence order, each paired with all its occurrence positions. -/
def newEntries (i : Nat) (seen : List (List Char)) :
    List (List Char) → LabelMap
  | [] => []
  | lab :: rest =>
    if lab ∈ seen then newEntries (i + 1) seen rest
    else (lab, i :: occFrom (i + 1) rest lab) ::
      newEntries (i + 1) (seen ++ [lab]) rest

/-! ### Concrete inputs taken from the source's doctests -/

/-- The line of the `get_syllable_count` doctest. -/
def doctestLine : List Char := "Then! the #poem ends.".toList

/-- The dictionary of the `get_syllable_count` doctest. -/
def doctestDict : PronunciationDict :=
  [("THEN".toList, ["DH".toList, "EH1".toList, "N".toList]),
   ("ENDS".toList, ["EH1".toList, "N".toList, "D".toList, "Z".toList]),
   ("THE".toList, ["DH".toList, "AH0".toList]),
   ("POEM".toList, ["P".toList, "OW1".toList, "AH0".toList, "M".toList])]

/-- The three-line poem of the `check_rhyme_scheme` doctest. -/
def doctestPoem : List (List Char) :=
  ["The first line leads off,".toList,
   "With a gap before the next.".toList,
   "Then the poem ends.".toList]

/-- The dictionary of the `check_rhyme_scheme` doctest. -/
def doctestFullDict : PronunciationDict :=
  [("NEXT".toList, ["N".toList, "EH1".toList, "K".toList, "S".toList,
     "T".toList]),
   ("GAP".toList, ["G".toList, "AE1".toList, "P".toList]),
   ("BEFORE".toList, ["B".toList, "IH0".toList, "F".toList, "AO1".toList,
     "R".toList]),
   ("LEADS".toList, ["L".toList, "IY1".toList, "D".toList, "Z".toList]),
   ("WITH".toList, ["W".toList, "IH1".toList, "DH".toList]),
   ("LINE".toList, ["L".toList, "AY1".toList, "N".toList]),
   ("THEN".toList, ["DH".toList, "EH1".toList, "N".toList]),
   ("THE".toList, ["DH".toList, "AH0".toList]),
   ("A".toList, ["AH0".toList]),
   ("FIRST".toList, ["F".toList, "ER1".toList, "S".toList, "T".toList]),
   ("ENDS".toList, ["EH1".toList, "N".toList, "D".toList, "Z".toList]),
   ("POEM".toList, ["P".toList, "OW1".toList, "AH0".toList, "M".toList]),
   ("OFF".toList, ["AO1".toList, "F".toList])]

/-- The A-B-A rhyme scheme of the `check_rhyme_scheme` doctest. -/
def doctestScheme : List (List Char) :=
  ["A".toList, "B".toList, "A".toList]

/-! ### Helper lemmas -/

theorem toUpper_toUpper_eq (c : Char) : c.toUpper.toUpper = c.toUpper := by
  by_cases h : c.toNat ≥ 97 ∧ c.toNat ≤ 122
  · have h1 : c.toUpper = Char.ofNat (c.toNat - 32) := by
      simp only [Char.toUpper, if_pos h]
    rw [h1]
    obtain ⟨h2, h3⟩ := h
    generalize c.toNat = n at h2 h3
    interval_cases n <;> decide
  · have h1 : c.toUpper = c := by
      simp only [Char.toUpper, if_neg h]
    rw [h1]
    exact h1

theorem dropWhile_dropWhile_eq (p : α → Bool) (l : List α) :
    (l.dropWhile p).dropWhile p = l.dropWhile p := by
  induction l with
  | nil => rfl
  | cons a l ih =>
    by_cases h : p a
    · simp [List.dropWhile_cons, h, ih]
    · simp [List.dropWhile_cons, h]

theorem dropWhile_eq_self_of_head (p : α → Bool) (l : List α)
    (h : ∀ x ∈ l.head?, p x = false) : l.dropWhile p = l := by
  cases l with
  | nil => rfl
  | cons a t => exact List.dropWhile_cons_of_neg (by simp [h a rfl])

theorem head_pyStrip_not_punct (l : List Char) :
    ∀ x ∈ (pyStrip l).head?, isPunct x = false := by
  intro x hx
  unfold pyStrip at hx
  rw [List.head?_reverse] at hx
  rcases hb : (l.dropWhile isPunct).reverse.dropWhile isPunct with _ | ⟨y, ys⟩
  · rw [hb] at hx; simp at hx
  · obtain ⟨t, ht⟩ := List.dropWhile_suffix (l := (l.dropWhile isPunct).reverse)
      (p := isPunct)
    rw [hb] at hx ht
    have hne : (y :: ys).getLast?.isSome := by simp
    have hx2 : x ∈ (l.dropWhile isPunct).head? := by
      rw [← List.getLast?_reverse, ← ht, List.getLast?_append,
        Option.or_of_isSome hne]
      exact hx
    have hh := List.head?_dropWhile_not isPunct l
    replace hx := hx2
    rcases hhd : (l.dropWhile isPunct).head? with _ | z
    · rw [hhd] at hx; simp at hx
    · rw [hhd] at hh hx
      simp at hx
      rw [hx] at hh
      exact hh

theorem getLast_pyStrip_not_punct (l : List Char) :
    ∀ x ∈ (pyStrip l).getLast?, isPunct x = false := by
  intro x hx
  unfold pyStrip at hx
  rw [List.getLast?_reverse] at hx
  have hh := List.head?_dropWhile_not isPunct (l.dropWhile isPunct).reverse
  rcases hhd : ((l.dropWhile isPunct).reverse.dropWhile isPunct).head? with _ | z
  · rw [hhd] at hx; simp at hx
  · rw [hhd] at hh hx
    simp at hx
    rw [hx] at hh
    exact hh

theorem pyStrip_pyStrip (l : List Char) : pyStrip (pyStrip l) = pyStrip l := by
  conv_lhs => rw [pyStrip]
  rw [dropWhile_eq_self_of_head isPunct (pyStrip l) (head_pyStrip_not_punct l)]
  rw [dropWhile_eq_self_of_head isPunct (pyStrip l).reverse
    (by intro x hx; rw [List.head?_reverse] at hx
        exact getLast_pyStrip_not_punct l x hx)]
  exact List.reverse_reverse _

theorem mem_pyStrip (l : List Char) (x : Char) (hx : x ∈ pyStrip l) : x ∈ l := by
  unfold pyStrip at hx
  rw [List.mem_reverse] at hx
  have h1 := (List.dropWhile_sublist (l := (l.dropWhile isPunct).reverse)
    (p := isPunct)).subset hx
  rw [List.mem_reverse] at h1
  exact (List.dropWhile_sublist (l := l) (p := isPunct)).subset h1

theorem map_toUpper_pyStrip (l : List Char) :
    (pyStrip (l.map Char.toUpper)).map Char.toUpper =
      pyStrip (l.map Char.toUpper) := by
  rw [List.map_congr_left (g := id), List.map_id]
  intro a ha
  obtain ⟨y, _, rfl⟩ := List.mem_map.1 (mem_pyStrip _ a ha)
  exact toUpper_toUpper_eq y

/-- `get_last_syllable` of a sequence with no vowel phoneme is empty. -/
theorem get_last_syllable_eq_nil (p : Phonemes)
    (h : ∀ x ∈ p, is_vowel_phoneme x = false) : get_last_syllable p = [] := by
  induction p with
  | nil => rfl
  | cons a t ih =>
    have ht : get_last_syllable t = [] :=
      ih (fun x hx => h x (List.mem_cons_of_mem a hx))
    rw [get_last_syllable, ht]
    simp [h a (List.mem_cons_self a t)]

/-- The full behaviour of the `check_syllable_counts` loop: when the counts
sequence is at least as long as the poem, the call succeeds, every reported
line sits at an index whose required count is non-zero (and differs from the
computed count), and an all-zero requirement yields the empty report. -/
theorem cscAux_spec (d : PronunciationDict) :
    ∀ (poem : List (List Char)) (counts : List Nat),
    poem.length ≤ counts.length →
    ∃ out, cscAux d poem counts = some out ∧
      (∀ l ∈ out, ∃ (i : Nat) (c : Nat), poem[i]? = some l ∧ counts[i]? = some c ∧ c ≠ 0) ∧
      ((∀ c ∈ counts, c = 0) → out = []) := by
  intro poem
  induction poem with
  | nil => intro counts _; exact ⟨[], rfl, by simp, fun _ => rfl⟩
  | cons line pr ih =>
    intro counts hlen
    cases counts with
    | nil => simp at hlen
    | cons req cr =>
      obtain ⟨out, hout, hmem, hzero⟩ := ih cr (by simpa using hlen)
      by_cases hcond : req ≠ 0 ∧ get_syllable_count line d ≠ req
      · refine ⟨line :: out, ?_, ?_, ?_⟩
        · rw [cscAux, hout]; simp [hcond]
        · intro l hl
          rcases List.mem_cons.1 hl with rfl | hl'
          · exact ⟨0, req, by simp, by simp, hcond.1⟩
          · obtain ⟨i, c, h1, h2, h3⟩ := hmem l hl'
            exact ⟨i + 1, c, by simpa using h1, by simpa using h2, h3⟩
        · intro hall
          exact absurd (hall req (List.mem_cons_self req cr)) hcond.1
      · refine ⟨out, ?_, ?_, ?_⟩
        · rw [cscAux, hout]; simp [hcond]
        · intro l hl
          obtain ⟨i, c, h1, h2, h3⟩ := hmem l hl
          exact ⟨i + 1, c, by simpa using h1, by simpa using h2, h3⟩
        · intro hall
          exact hzero (fun c hc => hall c (List.mem_cons_of_mem req hc))

/-! ### Claim theorems -/

/-- C1 (code bug evidence): on the line and dictionary of the source's own
doctest, `get_syllable_count` returns `0`, not the `5` that the doctest and
the specification demand — the code iterates over the characters of the
transformed line instead of its words. -/
theorem C1_get_syllable_count_doctest_eval :
    get_syllable_count doctestLine doctestDict = 0 := by decide

/-- C5: two words that are both present in the dictionary (after
normalization) and whose phoneme sequences contain no vowel phoneme both get
the empty last syllable, and `words_rhyme` declares them rhyming. -/
theorem C5_no_vowel_words_rhyme (a b : List Char) (d : PronunciationDict)
    (p1 p2 : Phonemes)
    (h1 : lookupWord d (transform_string a) = some p1)
    (h2 : lookupWord d (transform_string b) = some p2)
    (hv1 : ∀ x ∈ p1, is_vowel_phoneme x = false)
    (hv2 : ∀ x ∈ p2, is_vowel_phoneme x = false) :
    get_last_syllable p1 = [] ∧ get_last_syllable p2 = [] ∧
      words_rhyme a b d = true := by
  have e1 := get_last_syllable_eq_nil p1 hv1
  have e2 := get_last_syllable_eq_nil p2 hv2
  refine ⟨e1, e2, ?_⟩
  simp [words_rhyme, h1, h2, e1, e2]

/-- Witness for C5: `pst` and `hm`, two all-consonant pronunciations, rhyme
under the code. -/
theorem C5_no_vowel_words_rhyme_witness :
    get_last_syllable ["P".toList, "S".toList, "T".toList] = [] ∧
      get_last_syllable ["HH".toList, "M".toList] = [] ∧
      words_rhyme "pst".toList "hm".toList
        [("PST".toList, ["P".toList, "S".toList, "T".toList]),
         ("HM".toList, ["HH".toList, "M".toList])] = true :=
  C5_no_vowel_words_rhyme "pst".toList "hm".toList
    [("PST".toList, ["P".toList, "S".toList, "T".toList]),
     ("HM".toList, ["HH".toList, "M".toList])]
    ["P".toList, "S".toList, "T".toList] ["HH".toList, "M".toList]
    (by decide) (by decide) (by decide) (by decide)

/-- C6: under the length precondition, `check_syllable_counts` succeeds,
every reported line sits at an index whose required count is non-zero, and a
description whose required counts are all `0` yields the empty list whatever
the poem's content. -/
theorem C6_zero_required_never_flagged (poem : List (List Char))
    (counts : List Nat) (labels : List (List Char)) (d : PronunciationDict)
    (h : poem.length = counts.length) :
    ∃ out, check_syllable_counts poem (counts, labels) d = some out ∧
      (∀ l ∈ out, ∃ (i : Nat) (c : Nat), poem[i]? = some l ∧ counts[i]? = some c ∧ c ≠ 0) ∧
      ((∀ c ∈ counts, c = 0) → out = []) :=
  cscAux_spec d poem counts (le_of_eq h)

/-- Witness for C6: a one-line poem with required count `0` produces the
empty violation list. -/
theorem C6_zero_required_never_flagged_witness :
    ∃ out, check_syllable_counts ["ab".toList] ([0], []) [] = some out ∧
      (∀ l ∈ out, ∃ (i : Nat) (c : Nat), ["ab".toList][i]? = some l ∧
        [0][i]? = some c ∧ c ≠ 0) ∧
      ((∀ c ∈ [0], c = 0) → out = []) :=
  C6_zero_required_never_flagged ["ab".toList] [0] [] [] (by decide)

/-- C7: normalization is idempotent — `transform_string` applied twice equals
`transform_string` applied once. -/
theorem C7_transform_string_idem (s : List Char) :
    transform_string (transform_string s) = transform_string s := by
  unfold transform_string
  rw [map_toUpper_pyStrip, pyStrip_pyStrip]

/-- C8: `words_rhyme` is symmetric in its two words for every dictionary. -/
theorem C8_words_rhyme_symm (a b : List Char) (d : PronunciationDict) :
    words_rhyme a b d = words_rhyme b a d := by
  unfold words_rhyme
  cases h1 : lookupWord d (transform_string a) <;>
    cases h2 : lookupWord d (transform_string b) <;>
      simp only [decide_eq_decide]
  exact eq_comm

/-- A singleton index whose line is in range, has a last word, and whose
normalized last word is in the dictionary makes `all_lines_rhyme` succeed
with `true`. -/
theorem all_lines_rhyme_singleton (poem : List (List Char))
    (d : PronunciationDict) (i : Nat) (line w : List Char) (ph : Phonemes)
    (h1 : poem[i]? = some line)
    (h2 : (splitWS line).getLast? = some w)
    (h3 : lookupWord d (transform_string w) = some ph) :
    all_lines_rhyme poem [i] d = some true := by
  simp [all_lines_rhyme, collectLast, h1, h2, h3]

/-- `splitWS` of a list containing a non-whitespace character is non-empty. -/
theorem splitWS_ne_nil (line : List Char) (c : Char) (hc : c ∈ line)
    (hw : isWS c = false) : splitWS line ≠ [] := by
  induction line with
  | nil => cases hc
  | cons a t ih =>
    rw [splitWS.eq_def]
    dsimp only
    by_cases ha : isWS a
    · rw [if_pos ha]
      rcases List.mem_cons.1 hc with rfl | hct
      · rw [ha] at hw; cases hw
      · exact ih hct
    · rw [if_neg ha]
      cases t with
      | nil => simp
      | cons c2 t2 =>
        by_cases h2 : isWS c2
        · simp [h2]
        · simp only [h2, Bool.false_eq_true, if_false]
          cases splitWS (c2 :: t2) <;> simp

/-- The `last`-building loop of `all_lines_rhyme` raises no `IndexError` when
every referenced index is in range and the referenced line holds at least one
non-whitespace character. -/
theorem collectLast_isSome (poem : List (List Char)) (d : PronunciationDict) :
    ∀ idxs : List Nat,
    (∀ i ∈ idxs, ∃ line, poem[i]? = some line ∧
      ∃ c ∈ line, isWS c = false) →
    (collectLast poem d idxs).isSome = true := by
  intro idxs
  induction idxs with
  | nil => intro _; rfl
  | cons i rest ih =>
    intro h
    obtain ⟨line, hline, c, hc, hw⟩ := h i (List.mem_cons_self i rest)
    have hsp : splitWS line ≠ [] := splitWS_ne_nil line c hc hw
    obtain ⟨w, hw2⟩ := Option.isSome_iff_exists.1 (by simpa using hsp :
      (splitWS line).getLast?.isSome)
    cases hlk : lookupWord d (transform_string w) with
    | none => simp [collectLast, hline, hw2, hlk]
    | some ph =>
      have ihh := ih (fun j hj => h j (List.mem_cons_of_mem i hj))
      simp [collectLast, hline, hw2, hlk]
      simpa using ihh

/-- C3 (counterexample to the claim as stated): for the one-line poem `hi`
and the empty dictionary, the singleton check returns `false`, not `true` —
a singleton whose last word is missing from the dictionary does not pass. -/
theorem C3_counterexample :
    all_lines_rhyme ["hi".toList] [0] [] = some false := by decide

/-- C3 (amended): `all_lines_rhyme` on a singleton index list returns `true`
provided the index is in range, the line has a last word, and that word's
normalized form is in the dictionary. -/
theorem C3_singleton_rhymes (poem : List (List Char)) (d : PronunciationDict)
    (i : Nat) (line w : List Char) (ph : Phonemes)
    (h1 : poem[i]? = some line)
    (h2 : (splitWS line).getLast? = some w)
    (h3 : lookupWord d (transform_string w) = some ph) :
    all_lines_rhyme poem [i] d = some true :=
  all_lines_rhyme_singleton poem d i line w ph h1 h2 h3

/-- Witness for C3: the singleton check passes on a line whose last word is
in the dictionary. -/
theorem C3_singleton_rhymes_witness :
    all_lines_rhyme ["hi".toList] [0]
      [("HI".toList, ["HH".toList, "AY1".toList])] = some true :=
  C3_singleton_rhymes ["hi".toList]
    [("HI".toList, ["HH".toList, "AY1".toList])] 0 "hi".toList "hi".toList
    ["HH".toList, "AY1".toList] (by decide) (by decide) (by decide)

/-- C10: `all_lines_rhyme` completes without error whenever every referenced
index is in range and the referenced line contains a non-whitespace
character; mere non-emptiness of a line does not suffice — on the non-empty
whitespace-only line of a one-line poem the call fails with `IndexError`
(`split()[-1]` on an empty split). -/
theorem C10_all_lines_rhyme_safety (poem : List (List Char))
    (idxs : List Nat) (d : PronunciationDict)
    (h : ∀ i ∈ idxs, ∃ line, poem[i]? = some line ∧
      ∃ c ∈ line, isWS c = false) :
    (all_lines_rhyme poem idxs d).isSome = true ∧
      all_lines_rhyme [[' ']] [0] [] = none := by
  refine ⟨?_, by decide⟩
  have hcl := collectLast_isSome poem d idxs h
  unfold all_lines_rhyme
  rcases hc : collectLast poem d idxs with _ | _ | last
  · rw [hc] at hcl; cases hcl
  · rfl
  · rfl

/-- Witness for C10: the safety theorem applies to the one-line poem `hi`
checked at index `0` with the empty dictionary. -/
theorem C10_all_lines_rhyme_safety_witness :
    (all_lines_rhyme ["hi".toList] [0] []).isSome = true ∧
      all_lines_rhyme [[' ']] [0] [] = none :=
  C10_all_lines_rhyme_safety ["hi".toList] [0] []
    (by
      intro i hi
      have h0 : i = 0 := by simpa using hi
      subst h0
      exact ⟨"hi".toList, by simp, 'h', by decide, by decide⟩)

theorem any_fst_eq_iff (m : LabelMap) (lab : List Char) :
    m.any (fun kv => kv.1 = lab) = true ↔ lab ∈ m.map Prod.fst := by
  rw [List.any_eq_true, List.mem_map]
  constructor
  · rintro ⟨kv, hm, he⟩
    exact ⟨kv, hm, of_decide_eq_true he⟩
  · rintro ⟨kv, hm, he⟩
    exact ⟨kv, hm, decide_eq_true he⟩

/-- Unfolding of the `get_rhyme_label_to_lines` loop: starting from state `m`
at position `i`, the loop extends every existing entry with the positions of
its key in the remaining scheme and appends one entry per not-yet-seen label,
in first-occurrence order. -/
theorem buildAux_eq : ∀ (rest : List (List Char)) (i : Nat) (m : LabelMap),
    buildAux i m rest =
      m.map (fun kv => (kv.1, kv.2 ++ occFrom i rest kv.1)) ++
        newEntries i (m.map Prod.fst) rest := by
  intro rest
  induction rest with
  | nil =>
    intro i m
    simp [buildAux, newEntries, occFrom]
  | cons lab rest ih =>
    intro i m
    rw [buildAux, ih]
    by_cases h : m.any (fun kv => kv.1 = lab)
    · have hkeys : lab ∈ m.map Prod.fst := (any_fst_eq_iff m lab).1 h
      rw [addIndex, if_pos h]
      have hfst : (m.map (fun kv =>
          if kv.1 = lab then (kv.1, kv.2 ++ [i]) else kv)).map Prod.fst =
          m.map Prod.fst := by
        rw [List.map_map]
        apply List.map_congr_left
        intro kv _
        by_cases hk : kv.1 = lab <;> simp [hk]
      rw [hfst]
      have hne : newEntries i (m.map Prod.fst) (lab :: rest) =
          newEntries (i + 1) (m.map Prod.fst) rest := by
        rw [newEntries, if_pos hkeys]
      rw [hne]
      congr 1
      rw [List.map_map]
      apply List.map_congr_left
      intro kv _
      by_cases hk : kv.1 = lab
      · have hk' : lab = kv.1 := hk.symm
        simp [Function.comp, hk, occFrom, ← hk', List.append_assoc]
      · have hk' : ¬ lab = kv.1 := fun e => hk e.symm
        simp [Function.comp, hk, occFrom, hk']
    · have hkeys : lab ∉ m.map Prod.fst :=
        fun hmem => h ((any_fst_eq_iff m lab).2 hmem)
      rw [addIndex, if_neg h]
      have hfst2 : ((m ++ [(lab, [i])]).map Prod.fst) =
          m.map Prod.fst ++ [lab] := by simp
      rw [hfst2, newEntries, if_neg hkeys, List.map_append]
      have hmap : m.map (fun kv => (kv.1, kv.2 ++ occFrom (i + 1) rest kv.1)) =
          m.map (fun kv => (kv.1, kv.2 ++ occFrom i (lab :: rest) kv.1)) := by
        apply List.map_congr_left
        intro kv hkv
        have hk : ¬ lab = kv.1 :=
          fun e => hkeys (e ▸ List.mem_map_of_mem Prod.fst hkv)
        simp [occFrom, hk]
      rw [hmap]
      simp [occFrom, List.append_assoc]

/-- Every entry that the loop creates for a fresh label carries exactly the
occurrence positions of that label. -/
theorem newEntries_mem : ∀ (rest : List (List Char)) (i : Nat)
    (seen : List (List Char)) (lab : List Char) (l : List Nat),
    (lab, l) ∈ newEntries i seen rest →
      lab ∉ seen ∧ l = occFrom i rest lab := by
  intro rest
  induction rest with
  | nil => intro i seen lab l h; cases h
  | cons lab' rest ih =>
    intro i seen lab l h
    rw [newEntries] at h
    by_cases hs : lab' ∈ seen
    · rw [if_pos hs] at h
      obtain ⟨hns, hl⟩ := ih _ _ _ _ h
      have hne : ¬ lab' = lab := fun e => hns (e ▸ hs)
      exact ⟨hns, by rw [occFrom, if_neg hne]; exact hl⟩
    · rw [if_neg hs] at h
      rcases List.mem_cons.1 h with heq | hmem
      · have h1 : lab = lab' := congrArg Prod.fst heq
        have h2 : l = i :: occFrom (i + 1) rest lab' := congrArg Prod.snd heq
        subst h1
        refine ⟨hs, ?_⟩
        rw [occFrom, if_pos rfl]
        exact h2
      · obtain ⟨hns, hl⟩ := ih _ _ _ _ hmem
        have hlab : lab ∉ seen := fun c => hns (by simp [c])
        have hne : lab ≠ lab' := fun e => hns (by simp [e])
        exact ⟨hlab, by rw [occFrom, if_neg (fun e => hne e.symm)]; exact hl⟩

/-- The keys the loop creates are exactly the labels of the remaining scheme
that were not yet keys. -/
theorem newEntries_keys_mem : ∀ (rest : List (List Char)) (i : Nat)
    (seen : List (List Char)) (lab : List Char),
    lab ∈ (newEntries i seen rest).map Prod.fst ↔
      lab ∈ rest ∧ lab ∉ seen := by
  intro rest
  induction rest with
  | nil => intro i seen lab; simp [newEntries]
  | cons lab' rest ih =>
    intro i seen lab
    rw [newEntries]
    by_cases hs : lab' ∈ seen
    · rw [if_pos hs, ih]
      simp only [List.mem_cons]
      constructor
      · rintro ⟨h1, h2⟩
        exact ⟨Or.inr h1, h2⟩
      · rintro ⟨h1 | h1, h2⟩
        · subst h1; exact absurd hs h2
        · exact ⟨h1, h2⟩
    · rw [if_neg hs]
      simp only [List.map_cons, List.mem_cons, ih]
      constructor
      · rintro (rfl | ⟨h1, h2⟩)
        · exact ⟨Or.inl rfl, hs⟩
        · exact ⟨Or.inr h1, fun c => h2 (List.mem_append_left _ c)⟩
      · rintro ⟨h1, h2⟩
        rcases h1 with rfl | h1'
        · exact Or.inl rfl
        · by_cases he : lab = lab'
          · exact Or.inl he
          · exact Or.inr ⟨h1', by simp [h2, he]⟩

/-- The keys the loop creates are pairwise distinct. -/
theorem newEntries_keys_nodup : ∀ (rest : List (List Char)) (i : Nat)
    (seen : List (List Char)),
    ((newEntries i seen rest).map Prod.fst).Nodup := by
  intro rest
  induction rest with
  | nil => intro i seen; simp [newEntries]
  | cons lab' rest ih =>
    intro i seen
    rw [newEntries]
    by_cases hs : lab' ∈ seen
    · rw [if_pos hs]; exact ih _ _
    · rw [if_neg hs]
      simp only [List.map_cons, List.nodup_cons]
      refine ⟨?_, ih _ _⟩
      rw [newEntries_keys_mem]
      rintro ⟨_, h2⟩
      exact h2 (by simp)

/-- Characterisation of membership in `occFrom`. -/
theorem mem_occFrom : ∀ (rest : List (List Char)) (i j : Nat)
    (lab : List Char),
    j ∈ occFrom i rest lab ↔ i ≤ j ∧ rest[j - i]? = some lab := by
  intro rest
  induction rest with
  | nil => intro i j lab; simp [occFrom]
  | cons lab' rest ih =>
    intro i j lab
    rw [occFrom]
    by_cases h : lab' = lab
    · rw [if_pos h]
      simp only [List.mem_cons]
      constructor
      · rintro (rfl | hm)
        · exact ⟨Nat.le_refl _, by simp [Nat.sub_self, h]⟩
        · obtain ⟨h1, h2⟩ := (ih _ _ _).1 hm
          refine ⟨by omega, ?_⟩
          have he : j - i = (j - (i + 1)) + 1 := by omega
          rw [he]
          simpa using h2
      · rintro ⟨h1, h2⟩
        rcases Nat.eq_or_lt_of_le h1 with rfl | hlt
        · exact Or.inl rfl
        · right
          apply (ih _ _ _).2
          refine ⟨hlt, ?_⟩
          have he : j - i = (j - (i + 1)) + 1 := by omega
          rw [he] at h2
          simpa using h2
    · rw [if_neg h, ih]
      constructor
      · rintro ⟨h1, h2⟩
        refine ⟨by omega, ?_⟩
        have he : j - i = (j - (i + 1)) + 1 := by omega
        rw [he]
        simpa using h2
      · rintro ⟨h1, h2⟩
        have hij : i ≠ j := by
          rintro rfl
          rw [Nat.sub_self] at h2
          simp at h2
          exact h (by simpa using h2)
        refine ⟨by omega, ?_⟩
        have he : j - i = (j - (i + 1)) + 1 := by omega
        rw [he] at h2
        simpa using h2

/-- `occFrom` lists are strictly increasing and bounded below by the start
position. -/
theorem occFrom_chain_bound : ∀ (rest : List (List Char)) (i : Nat)
    (lab : List Char),
    List.Chain' (· < ·) (occFrom i rest lab) ∧
      ∀ j ∈ occFrom i rest lab, i ≤ j := by
  intro rest
  induction rest with
  | nil => intro i lab; simp [occFrom]
  | cons lab' rest ih =>
    intro i lab
    obtain ⟨hc, hb⟩ := ih (i + 1) lab
    rw [occFrom]
    by_cases h : lab' = lab
    · rw [if_pos h]
      constructor
      · apply List.chain'_cons'.2
        refine ⟨?_, hc⟩
        intro b hbm
        have hmem : b ∈ occFrom (i + 1) rest lab := List.mem_of_mem_head? hbm
        have := hb b hmem
        omega
      · intro j hj
        rcases List.mem_cons.1 hj with rfl | hj'
        · exact Nat.le_refl _
        · have := hb j hj'
          omega
    · rw [if_neg h]
      refine ⟨hc, fun j hj => ?_⟩
      have := hb j hj
      omega

/-- In an association list with pairwise-distinct keys, two members with the
same key are the same entry. -/
theorem eq_of_mem_nodup_keys : ∀ (m : LabelMap),
    (m.map Prod.fst).Nodup →
    ∀ (p q : List Char × List Nat), p ∈ m → q ∈ m → p.1 = q.1 → p = q := by
  intro m
  induction m with
  | nil => intro _ p q hp; cases hp
  | cons kv t ih =>
    intro h p q hp hq heq
    simp only [List.map_cons, List.nodup_cons] at h
    rcases List.mem_cons.1 hp with rfl | hp' <;>
      rcases List.mem_cons.1 hq with rfl | hq'
    · rfl
    · exact absurd (heq ▸ List.mem_map_of_mem Prod.fst hq') h.1
    · exact absurd (heq ▸ List.mem_map_of_mem Prod.fst hp') h.1
    · exact ih h.2 p q hp' hq' heq

/-- The final label map is exactly the fresh-entry list of the whole
scheme. -/
theorem get_rhyme_label_to_lines_eq (scheme : List (List Char)) :
    get_rhyme_label_to_lines scheme = newEntries 0 [] scheme := by
  rw [get_rhyme_label_to_lines, buildAux_eq]
  simp

/-- C9: the mapping built by `get_rhyme_label_to_lines` has as keys exactly
the labels occurring in the scheme, assigns every index `0..n-1` to exactly
one label's list, and keeps every list strictly increasing. -/
theorem C9_label_map_invariants (scheme : List (List Char)) :
    (∀ lab, (∃ l, (lab, l) ∈ get_rhyme_label_to_lines scheme) ↔
      lab ∈ scheme) ∧
    (∀ i, i < scheme.length →
      ∃! p, p ∈ get_rhyme_label_to_lines scheme ∧ i ∈ p.2) ∧
    (∀ p ∈ get_rhyme_label_to_lines scheme, List.Chain' (· < ·) p.2) := by
  rw [get_rhyme_label_to_lines_eq]
  refine ⟨?_, ?_, ?_⟩
  · intro lab
    constructor
    · rintro ⟨l, hl⟩
      have hk := (newEntries_keys_mem scheme 0 [] lab).1
        (List.mem_map_of_mem Prod.fst hl)
      exact hk.1
    · intro hmem
      have hk := (newEntries_keys_mem scheme 0 [] lab).2 ⟨hmem, by simp⟩
      obtain ⟨⟨a, l⟩, hp, hfst⟩ := List.mem_map.1 hk
      dsimp at hfst
      subst hfst
      exact ⟨l, hp⟩
  · intro i hi
    have hlab : scheme[i]? = some scheme[i] := List.getElem?_eq_getElem hi
    have hmem : scheme[i] ∈ scheme := List.getElem_mem hi
    have hkey := (newEntries_keys_mem scheme 0 [] scheme[i]).2 ⟨hmem, by simp⟩
    obtain ⟨⟨a, l⟩, hp, hfst⟩ := List.mem_map.1 hkey
    dsimp at hfst
    subst hfst
    obtain ⟨_, hocc⟩ := newEntries_mem scheme 0 [] scheme[i] l hp
    refine ⟨(scheme[i], l), ⟨hp, ?_⟩, ?_⟩
    · show i ∈ l
      rw [hocc, mem_occFrom]
      exact ⟨Nat.zero_le _, by rw [Nat.sub_zero]; exact hlab⟩
    · rintro ⟨b, l2⟩ ⟨hq, hqi⟩
      obtain ⟨_, hocc2⟩ := newEntries_mem scheme 0 [] b l2 hq
      have hqi2 : i ∈ occFrom 0 scheme b := by rw [← hocc2]; exact hqi
      have hb : scheme[i]? = some b := by
        have h2 := (mem_occFrom scheme 0 i b).1 hqi2
        simpa using h2.2
      have hfst2 : b = scheme[i] := by
        rw [hlab] at hb
        exact (Option.some.inj hb).symm
      exact eq_of_mem_nodup_keys _ (newEntries_keys_nodup scheme 0 [])
        (b, l2) (scheme[i], l) hq hp hfst2
  · intro p hp
    obtain ⟨a, l⟩ := p
    obtain ⟨_, hocc⟩ := newEntries_mem scheme 0 [] a l hp
    show List.Chain' (· < ·) l
    rw [hocc]
    exact (occFrom_chain_bound scheme 0 a).1

/-- Witness for C9: in the scheme A-A-B, index `0` belongs to exactly one
label's list. -/
theorem C9_label_map_invariants_witness :
    ∃! p, p ∈ get_rhyme_label_to_lines
      ["A".toList, "A".toList, "B".toList] ∧ 0 ∈ p.2 :=
  (C9_label_map_invariants ["A".toList, "A".toList, "B".toList]).2.1 0
    (by decide)

/-- Everything the `check_rhyme_scheme` loop adds to the accumulator is the
line list of a non-`'*'` label whose group fails `all_lines_rhyme`. -/
theorem crsAux_mem (poem : List (List Char)) (d : PronunciationDict) :
    ∀ (labels : LabelMap) (acc out : List (List (List Char))),
    crsAux poem d labels acc = some out → ∀ e ∈ out,
      e ∈ acc ∨ ∃ lab js, (lab, js) ∈ labels ∧ lab ≠ star ∧
        linesAt poem js = some e ∧
        all_lines_rhyme poem js d = some false := by
  intro labels
  induction labels with
  | nil =>
    intro acc out h e he
    rw [crsAux] at h
    obtain rfl : acc = out := Option.some.inj h
    exact Or.inl he
  | cons kv rest ih =>
    obtain ⟨lab, js⟩ := kv
    intro acc out h e he
    rw [crsAux] at h
    by_cases hl : lab = star
    · rw [if_pos hl] at h
      rcases ih acc out h e he with h1 | ⟨lab2, js2, hm, hns, hla, har⟩
      · exact Or.inl h1
      · exact Or.inr ⟨lab2, js2, List.mem_cons_of_mem _ hm, hns, hla, har⟩
    · rw [if_neg hl] at h
      cases hLA : linesAt poem js with
      | none => rw [hLA] at h; simp at h
      | some line =>
        rw [hLA] at h
        cases hAR : all_lines_rhyme poem js d with
        | none => rw [hAR] at h; simp at h
        | some b =>
          rw [hAR] at h
          cases b with
          | false =>
            have h2 : crsAux poem d rest ((acc ++ [line]) ++ [line]) =
                some out := by simpa using h
            rcases ih _ out h2 e he with h1 | ⟨lab2, js2, hm, hns, hla, har⟩
            · rcases List.mem_append.1 h1 with h3 | h3
              · rcases List.mem_append.1 h3 with h4 | h4
                · exact Or.inl h4
                · have he2 : e = line := by simpa using h4
                  subst he2
                  exact Or.inr ⟨lab, js, List.mem_cons_self _ _, hl, hLA, hAR⟩
              · have he2 : e = line := by simpa using h3
                subst he2
                exact Or.inr ⟨lab, js, List.mem_cons_self _ _, hl, hLA, hAR⟩
            · exact Or.inr ⟨lab2, js2, List.mem_cons_of_mem _ hm, hns, hla,
                har⟩
          | true =>
            have h2 : crsAux poem d rest acc = some out := by simpa using h
            rcases ih acc out h2 e he with h1 | ⟨lab2, js2, hm, hns, hla, har⟩
            · exact Or.inl h1
            · exact Or.inr ⟨lab2, js2, List.mem_cons_of_mem _ hm, hns, hla,
                har⟩

/-- C2 (code bug evidence): on the poem, A-B-A description and dictionary of
the source's own doctest, `check_rhyme_scheme` reports the failing A group
twice — the doctest demands it exactly once. -/
theorem C2_check_rhyme_scheme_doctest_eval :
    check_rhyme_scheme doctestPoem ([5, 7, 5], doctestScheme)
        doctestFullDict =
      some [["The first line leads off,".toList,
             "Then the poem ends.".toList],
            ["The first line leads off,".toList,
             "Then the poem ends.".toList]] := by decide

/-- C4 (counterexample to the claim as stated): a rhyme group holding the
single index `0`, whose line's last word is absent from the dictionary, IS
reported (twice) by `check_rhyme_scheme`. -/
theorem C4_counterexample :
    check_rhyme_scheme ["hi".toList] ([0], ["A".toList]) [] =
      some [["hi".toList], ["hi".toList]] := by decide

/-- C4 (amended): every reported group of `check_rhyme_scheme` comes from a
non-`'*'` label whose index list is NOT a singleton with its line's
normalized last word present in the dictionary — a singleton group whose
word is found never appears. -/
theorem C4_singleton_groups_not_reported (poem : List (List Char))
    (description : List Nat × List (List Char)) (d : PronunciationDict)
    (out : List (List (List Char)))
    (h : check_rhyme_scheme poem description d = some out) :
    ∀ e ∈ out, ∃ lab js,
      (lab, js) ∈ get_rhyme_label_to_lines description.2 ∧ lab ≠ star ∧
      linesAt poem js = some e ∧
      ¬ ∃ (i : Nat) (line w : List Char) (ph : Phonemes), js = [i] ∧
        poem[i]? = some line ∧ (splitWS line).getLast? = some w ∧
        lookupWord d (transform_string w) = some ph := by
  intro e he
  rcases crsAux_mem poem d _ [] out h e he with h1 |
    ⟨lab, js, hm, hns, hla, har⟩
  · cases h1
  · refine ⟨lab, js, hm, hns, hla, ?_⟩
    rintro ⟨i, line, w, ph, rfl, h1, h2, h3⟩
    rw [all_lines_rhyme_singleton poem d i line w ph h1 h2 h3] at har
    simp at har

/-- Witness for C4: applied to the one-line poem whose only label group is
the singleton `[0]` with an unknown word. -/
theorem C4_singleton_groups_not_reported_witness :
    ∃ lab js, (lab, js) ∈ get_rhyme_label_to_lines ["A".toList] ∧
      lab ≠ star ∧ linesAt ["hi".toList] js = some ["hi".toList] ∧
      ¬ ∃ (i : Nat) (line w : List Char) (ph : Phonemes), js = [i] ∧
        (["hi".toList])[i]? = some line ∧
        (splitWS line).getLast? = some w ∧
        lookupWord [] (transform_string w) = some ph :=
  C4_singleton_groups_not_reported ["hi".toList] ([0], ["A".toList]) []
    [["hi".toList], ["hi".toList]] (by decide) ["hi".toList] (by decide)

end PoetryChecker
